import Mathlib

/-!
# Verification of demo-platform-shared security primitives

Shallow embedding of the security-relevant core of the repository:

* session token generation / validation / expiry (HMAC-SHA256 signed,
  `base64(sessionId:timestamp).hexSignature` format),
* the in-memory fixed-window rate limiter (`check`, `recordFailure`,
  `cleanup`),
* the credential env-file content builder (`createSessionEnvFile`).

JavaScript strings are modelled as `List Char`; byte buffers as `List Nat`
with every byte `< 256`.  The HMAC-SHA256 primitive is kept abstract as a
function parameter (its digest bytes are below 256); theorems that need a
cryptographic property take it as an explicit hypothesis.  Wall-clock reads
(`Date.now()`) are explicit `now` arguments.
-/

namespace DemoShared

/-! ### Base64 (Node `Buffer` semantics) -/

/-- The standard base64 alphabet, index 0..63. -/
def b64Alphabet : List Char :=
  "ABCDEFGHIJKLMNOPQRSTUVWXYZabcdefghijklmnopqrstuvwxyz0123456789+/".toList

/-- Character for a 6-bit group. -/
def b64Tbl (k : Nat) : Char := b64Alphabet.getD k 'A'

/-- Membership in the base64 alphabet. -/
def isB64Char (c : Char) : Bool := b64Alphabet.contains c

/-- 6-bit value of an alphabet character. -/
def b64Val (c : Char) : Nat := b64Alphabet.indexOf c

/-- Node `Buffer.prototype.toString('base64')`: encode bytes three at a time,
padding the final group with `=`. -/
def base64encode : List Nat → List Char
  | [] => []
  | [b1] => [b64Tbl (b1 / 4), b64Tbl (b1 % 4 * 16), '=', '=']
  | [b1, b2] => [b64Tbl (b1 / 4), b64Tbl (b1 % 4 * 16 + b2 / 16), b64Tbl (b2 % 16 * 4), '=']
  | b1 :: b2 :: b3 :: rest =>
      b64Tbl (b1 / 4) :: b64Tbl (b1 % 4 * 16 + b2 / 16) ::
      b64Tbl (b2 % 16 * 4 + b3 / 64) :: b64Tbl (b3 % 64) :: base64encode rest

/-- Decode base64 characters (already restricted to the alphabet) four at a
time; a trailing group of three characters yields two bytes, of two
characters one byte, and a lone character is dropped. -/
def b64DecodeGroups : List Char → List Nat
  | c1 :: c2 :: c3 :: c4 :: rest =>
      (b64Val c1 * 4 + b64Val c2 / 16) ::
      (b64Val c2 % 16 * 16 + b64Val c3 / 4) ::
      (b64Val c3 % 4 * 64 + b64Val c4) :: b64DecodeGroups rest
  | [c1, c2, c3] =>
      [b64Val c1 * 4 + b64Val c2 / 16, b64Val c2 % 16 * 16 + b64Val c3 / 4]
  | [c1, c2] => [b64Val c1 * 4 + b64Val c2 / 16]
  | _ => []

/-- Node's `Buffer.from(s, 'base64')`: a forgiving decoder that never
throws — it stops at the first `=` and skips characters outside the
alphabet. -/
def bufferFromBase64 (s : List Char) : List Nat :=
  b64DecodeGroups ((s.takeWhile (fun c => c ≠ '=')).filter isB64Char)

/-! ### Lowercase hex (Node `digest('hex')` / `Buffer.from(s, 'hex')`) -/

/-- Lowercase hex digit for a value below 16. -/
def hexTbl (k : Nat) : Char :=
  "0123456789abcdef".toList.getD k '0'

/-- Render bytes as lowercase hex, two characters per byte. -/
def hexEncodeBytes : List Nat → List Char
  | [] => []
  | b :: rest => hexTbl (b / 16) :: hexTbl (b % 16) :: hexEncodeBytes rest

/-- Value of a hex digit (either case), `none` for a non-hex character. -/
def hexVal (c : Char) : Option Nat :=
  if '0' ≤ c ∧ c ≤ '9' then some (c.toNat - 48)
  else if 'a' ≤ c ∧ c ≤ 'f' then some (c.toNat - 87)
  else if 'A' ≤ c ∧ c ≤ 'F' then some (c.toNat - 55)
  else none

/-- Node's `Buffer.from(s, 'hex')`: decode hex pairs, truncating at the
first invalid pair or odd leftover character. -/
def bufferFromHex : List Char → List Nat
  | c1 :: c2 :: rest =>
      (match hexVal c1, hexVal c2 with
       | some h, some l => (h * 16 + l) :: bufferFromHex rest
       | _, _ => [])
  | _ => []

/-! ### UTF-8 (Node `Buffer.from(string)` / `buffer.toString('utf8')`) -/

/-- UTF-8 bytes of a single scalar value. -/
def utf8EncodeChar (c : Char) : List Nat :=
  let n := c.toNat
  if n < 0x80 then [n]
  else if n < 0x800 then [0xC0 + n / 64, 0x80 + n % 64]
  else if n < 0x10000 then [0xE0 + n / 4096, 0x80 + n / 64 % 64, 0x80 + n % 64]
  else [0xF0 + n / 0x40000, 0x80 + n / 4096 % 64, 0x80 + n / 64 % 64, 0x80 + n % 64]

/-- UTF-8 bytes of a string (`Buffer.from(data)`). -/
def utf8Encode (s : List Char) : List Nat := (s.map utf8EncodeChar).flatten

/-- U+FFFD replacement character. -/
def uRepl : Char := Char.ofNat 0xFFFD

/-- State of the WHATWG UTF-8 decoder: `needed` continuation bytes are
still expected, `acc` is the accumulated code point, and the next byte must
lie in `[lo, hi]`. -/
structure Utf8State where
  needed : Nat
  acc : Nat
  lo : Nat
  hi : Nat
deriving Repr, DecidableEq

/-- Initial (ground) decoder state. -/
def utf8Ground : Utf8State := ⟨0, 0, 0, 0⟩

/-- Handle one byte in the ground state: emit an ASCII character, start a
multi-byte sequence (with the WHATWG bounds for the second byte), or emit
U+FFFD for an invalid lead byte. -/
def utf8Start (b : Nat) : List Char × Utf8State :=
  if b < 0x80 then ([Char.ofNat b], utf8Ground)
  else if 0xC2 ≤ b ∧ b ≤ 0xDF then ([], ⟨1, b - 0xC0, 0x80, 0xBF⟩)
  else if b = 0xE0 then ([], ⟨2, 0, 0xA0, 0xBF⟩)
  else if b = 0xED then ([], ⟨2, 13, 0x80, 0x9F⟩)
  else if 0xE1 ≤ b ∧ b ≤ 0xEF then ([], ⟨2, b - 0xE0, 0x80, 0xBF⟩)
  else if b = 0xF0 then ([], ⟨3, 0, 0x90, 0xBF⟩)
  else if b = 0xF4 then ([], ⟨3, 4, 0x80, 0x8F⟩)
  else if 0xF1 ≤ b ∧ b ≤ 0xF3 then ([], ⟨3, b - 0xF0, 0x80, 0xBF⟩)
  else ([uRepl], utf8Ground)

/-- Handle one byte in an arbitrary decoder state: accept an expected
continuation byte, or emit U+FFFD and reprocess the byte in the ground
state. -/
def utf8Step (st : Utf8State) (b : Nat) : List Char × Utf8State :=
  if st.needed = 0 then utf8Start b
  else if st.lo ≤ b ∧ b ≤ st.hi then
    let acc := st.acc * 64 + (b - 0x80)
    if st.needed = 1 then ([Char.ofNat acc], utf8Ground)
    else ([], ⟨st.needed - 1, acc, 0x80, 0xBF⟩)
  else
    (uRepl :: (utf8Start b).1, (utf8Start b).2)

/-- Run the decoder from a given state; a truncated trailing sequence
yields one final U+FFFD. -/
def utf8Run (st : Utf8State) : List Nat → List Char
  | [] => if st.needed = 0 then [] else [uRepl]
  | b :: bs => (utf8Step st b).1 ++ utf8Run (utf8Step st b).2 bs

/-- Node `buffer.toString('utf8')`: WHATWG UTF-8 decoding, never failing —
ill-formed subsequences become U+FFFD and decoding resumes at the
offending byte. -/
def utf8DecodeReplace (bs : List Nat) : List Char := utf8Run utf8Ground bs

/-! ### JavaScript string helpers -/

/-- JavaScript `String.prototype.split(sep)` for a single-character separator:
empty segments are preserved. -/
def splitOnChar (sep : Char) : List Char → List (List Char)
  | [] => [[]]
  | c :: rest =>
    match splitOnChar sep rest with
    | [] => if c = sep then [[], []] else [[c]]
    | cur :: acc => if c = sep then [] :: cur :: acc else (c :: cur) :: acc

/-- JavaScript `String.prototype.lastIndexOf(ch)`: index of the last occurrence
(`none` for JavaScript's `-1`). -/
def lastIndexOfChar (ch : Char) : List Char → Option Nat
  | [] => none
  | c :: rest =>
    match lastIndexOfChar ch rest with
    | some i => some (i + 1)
    | none => if c = ch then some 0 else none

/-- JavaScript whitespace skipped by `parseInt`. -/
def jsSpace (c : Char) : Bool :=
  c = ' ' ∨ c = '\t' ∨ c = '\n' ∨ c = '\r' ∨ c.toNat = 11 ∨ c.toNat = 12

/-- Accumulate the value of a maximal leading run of decimal digits;
`none` when there is no leading digit (`parseInt` returns `NaN`). -/
def parseDecDigits (s : List Char) : Option Nat :=
  let ds := s.takeWhile Char.isDigit
  if ds.isEmpty then none
  else some (ds.foldl (fun a c => a * 10 + (c.toNat - 48)) 0)

/-- JavaScript `parseInt(s, 10)`: skip leading whitespace, optional sign, then a
maximal run of decimal digits; `none` models `NaN`. -/
def parseIntJS (s : List Char) : Option Int :=
  let s1 := s.dropWhile jsSpace
  if s1.head? = some '-' then (parseDecDigits s1.tail).map (fun n => -(n : Int))
  else if s1.head? = some '+' then (parseDecDigits s1.tail).map (fun n => (n : Int))
  else (parseDecDigits s1).map (fun n => (n : Int))

/-- JavaScript `Number.prototype.toString()` for a natural number: decimal digits. -/
def natToDecimalChars (n : Nat) : List Char :=
  if n = 0 then ['0']
  else (Nat.digits 10 n).reverse.map (fun d => Char.ofNat (48 + d))

/-! ### Session token codec (`lib/session.js`) -/

/-- The HMAC-SHA256 primitive, abstract: secret and data strings to digest
bytes.  `crypto.createHmac('sha256', secret).update(data)` hashes the
UTF-8 bytes of both strings, so working at string level is faithful
(UTF-8 encoding is injective). -/
def HmacFun : Type := List Char → List Char → List Nat

/-- The digest bytes of a real HMAC-SHA256 are bytes (below 256). -/
def GoodHmac (hmac : HmacFun) : Prop := ∀ k d, ∀ b ∈ hmac k d, b < 256

/-- The signed payload `sessionId + ":" + timestamp` built by
`generateSessionToken`. -/
def sessionTokenData (sessionId : List Char) (nowMs : Nat) : List Char :=
  sessionId ++ ':' :: natToDecimalChars nowMs

/-- Source `generateSessionToken(sessionId, secret)`; `Date.now()` is the
explicit `nowMs` argument and `none` models the thrown error for an
empty argument.  Returns
`base64(data) + "." + hex(HMAC-SHA256(secret, data))`. -/
def generateSessionToken (hmac : HmacFun) (sessionId secret : List Char) (nowMs : Nat) :
    Option (List Char) :=
  if sessionId = [] then none
  else if secret = [] then none
  else
    let data := sessionTokenData sessionId nowMs
    some (base64encode (utf8Encode data) ++ '.' :: hexEncodeBytes (hmac secret data))

/-- Result object of `validateSessionToken`; fields the source leaves
absent are `none`. -/
structure ValidationResult where
  valid : Bool
  sessionId : Option (List Char)
  timestamp : Option Int
  error : Option String
deriving Repr, DecidableEq

/-- Node `Buffer.from(encodedData, 'base64').toString('utf8')` wrapped in the
source's try/catch: Node's base64 decoder and UTF-8 stringifier are total,
so the `none` (caught-exception) case never occurs. -/
def decodeBase64Data (encodedData : List Char) : Option (List Char) :=
  some (utf8DecodeReplace (bufferFromBase64 encodedData))

/-- Source `validateSessionToken(token, secret)`: format check, base64 decode,
constant-time signature comparison (length check then byte equality —
modelled as list equality, which timing-safe equality computes), then
payload parsing at the rightmost `:`. -/
def validateSessionToken (hmac : HmacFun) (token secret : List Char) : ValidationResult :=
  if token = [] then ⟨false, none, none, some "Token must be a non-empty string"⟩
  else if secret = [] then ⟨false, none, none, some "Secret must be a non-empty string"⟩
  else
    match splitOnChar '.' token with
    | [encodedData, signature] =>
      (match decodeBase64Data encodedData with
       | none => ⟨false, none, none, some "Invalid base64 encoding"⟩
       | some data =>
         let expectedSignature := hexEncodeBytes (hmac secret data)
         let signatureBuffer := bufferFromHex signature
         let expectedBuffer := bufferFromHex expectedSignature
         if signatureBuffer.length ≠ expectedBuffer.length ∨ signatureBuffer ≠ expectedBuffer then
           ⟨false, none, none, some "Invalid signature"⟩
         else
           match lastIndexOfChar ':' data with
           | none => ⟨false, none, none, some "Invalid token data format"⟩
           | some colonIndex =>
             match parseIntJS (data.drop (colonIndex + 1)) with
             | none => ⟨false, none, none, some "Invalid timestamp"⟩
             | some timestamp =>
               ⟨true, some (data.take colonIndex), some timestamp, none⟩)
    | _ => ⟨false, none, none, some "Invalid token format"⟩

/-- Result object of `isSessionTokenExpired`. -/
structure ExpiryResult where
  expired : Bool
  ageMs : Option Int
  error : Option String
deriving Repr, DecidableEq

/-- Source `isSessionTokenExpired(token, secret, maxAgeMs)`: delegates to
`validateSessionToken`, failing closed; otherwise compares
`ageMs = now - timestamp` against `maxAgeMs`. -/
def isSessionTokenExpired (hmac : HmacFun) (token secret : List Char)
    (maxAgeMs nowMs : Int) : ExpiryResult :=
  let validation := validateSessionToken hmac token secret
  if !validation.valid then ⟨true, none, validation.error⟩
  else
    let ageMs := nowMs - validation.timestamp.getD 0
    ⟨decide (ageMs > maxAgeMs), some ageMs, none⟩

/-! ### Rate limiter (`lib/rate-limit.js`) -/

/-- Fixed configuration of a limiter (validated positive by
`createRateLimiter`). -/
structure RLConfig where
  windowMs : Nat
  maxAttempts : Nat
  cleanupThreshold : Nat
deriving Repr, DecidableEq

/-- One entry of the `records` map: `{ count, resetAt }`. -/
structure RLRecord where
  count : Nat
  resetAt : Nat
deriving Repr, DecidableEq

/-- The `records` map, as an insertion-ordered association list (the
iteration/insertion behaviour of a JavaScript `Map`). -/
abbrev RLMap : Type := List (String × RLRecord)

/-- Map lookup `records.get(key)`. -/
def mapGet (m : RLMap) (key : String) : Option RLRecord :=
  (List.find? (fun p => p.1 = key) m).map (fun p => p.2)

/-- Map update `records.set(key, v)`: replace in place, or append a new entry. -/
def mapSet (m : RLMap) (key : String) (v : RLRecord) : RLMap :=
  if (List.find? (fun p => p.1 = key) m).isSome then
    List.map (fun p => if p.1 = key then (key, v) else p) m
  else m ++ [(key, v)]

/-- Map removal `records.delete(key)`. -/
def mapDelete (m : RLMap) (key : String) : RLMap :=
  List.filter (fun p => p.1 ≠ key) m

/-- Map size `records.size`. -/
def mapSize (m : RLMap) : Nat := List.length m

/-- Result object of `check`. -/
structure RLCheckResult where
  allowed : Bool
  remaining : Nat
  retryAfter : Option Nat
deriving Repr, DecidableEq

/-- Source `cleanup()`: drop every record with `now > resetAt`. -/
def rlCleanup (m : RLMap) (now : Nat) : RLMap :=
  List.filter (fun p => decide (now ≤ p.2.resetAt)) m

/-- First statement of `check`: drop the key's entry when it is expired
(`now > resetAt`). -/
def rlStep1 (m : RLMap) (key : String) (now : Nat) : RLMap :=
  match mapGet m key with
  | some existing => if now > existing.resetAt then mapDelete m key else m
  | none => m

/-- Second statement of `check`: sweep all expired entries when the map
outgrows `cleanupThreshold`. -/
def rlStep2 (cfg : RLConfig) (m1 : RLMap) (now : Nat) : RLMap :=
  if mapSize m1 > cfg.cleanupThreshold then rlCleanup m1 now else m1

/-- Source `check(key, increment)`: drop the key's expired entry, sweep when the
map outgrows `cleanupThreshold`, then allow/deny and optionally count the
attempt.  `Date.now()` is the explicit `now` argument; returns the result
together with the updated map. -/
def rlCheck (cfg : RLConfig) (m : RLMap) (key : String) (increment : Bool) (now : Nat) :
    RLCheckResult × RLMap :=
  let m2 := rlStep2 cfg (rlStep1 m key now) now
  match mapGet m2 key with
  | none =>
    if increment then
      (⟨true, cfg.maxAttempts - 1, none⟩, mapSet m2 key ⟨1, now + cfg.windowMs⟩)
    else (⟨true, cfg.maxAttempts - 1, none⟩, m2)
  | some record =>
    if record.count ≥ cfg.maxAttempts then
      (⟨false, 0, some ((record.resetAt - now + 999) / 1000)⟩, m2)
    else
      let newCount := if increment then record.count + 1 else record.count
      (⟨true, cfg.maxAttempts - newCount, none⟩,
       if increment then mapSet m2 key ⟨newCount, record.resetAt⟩ else m2)

/-- Source `recordFailure(key)`: start a fresh window when there is no live
record, otherwise increment the live record's count. -/
def rlRecordFailure (cfg : RLConfig) (m : RLMap) (key : String) (now : Nat) : RLMap :=
  match mapGet m key with
  | none => mapSet m key ⟨1, now + cfg.windowMs⟩
  | some record =>
    if now > record.resetAt then mapSet m key ⟨1, now + cfg.windowMs⟩
    else mapSet m key ⟨record.count + 1, record.resetAt⟩

/-- Run `check` repeatedly for one key, one call per element of `nows`,
collecting the results (used to state the window property). -/
def rlRunSameKey (cfg : RLConfig) (key : String) (increment : Bool) :
    RLMap → List Nat → List RLCheckResult × RLMap
  | m, [] => ([], m)
  | m, t :: ts =>
    let step := rlCheck cfg m key increment t
    let rest := rlRunSameKey cfg key increment step.2 ts
    (step.1 :: rest.1, rest.2)

/-! ### Credential env-file content (`lib/env-file.js`) -/

/-- Does a credential value survive the filter
`value !== undefined && value !== null && value !== ''`?
`none` models both `undefined` and `null`. -/
def credSurvives (v : Option (List Char)) : Bool :=
  match v with
  | none => false
  | some s => !s.isEmpty

/-- One rendered line `${key}=${value}`. -/
def envLine (p : List Char × Option (List Char)) : List Char :=
  p.1 ++ '=' :: (p.2.getD [])

/-- JavaScript `Array.prototype.join('\n')`. -/
def joinLines : List (List Char) → List Char
  | [] => []
  | [l] => l
  | l :: ls => l ++ '\n' :: joinLines ls

/-- The env-file content built by `createSessionEnvFile`: filter out
empty/absent values, render `KEY=VALUE` lines, join with newlines and
append a trailing newline. -/
def createSessionEnvFileContent (credentials : List (List Char × Option (List Char))) :
    List Char :=
  joinLines ((credentials.filter (fun p => credSurvives p.2)).map envLine) ++ ['\n']

/-! ## Helper lemmas: hex codec -/

theorem hexVal_hexTbl : ∀ k < 16, hexVal (hexTbl k) = some k := by decide

theorem hexTbl_ne_dot : ∀ k < 16, hexTbl k ≠ '.' := by decide

/-- Node `Buffer.from(-, 'hex')` inverts lowercase hex rendering of bytes. -/
theorem bufferFromHex_hexEncodeBytes (bs : List Nat) (h : ∀ b ∈ bs, b < 256) :
    bufferFromHex (hexEncodeBytes bs) = bs := by
  induction bs with
  | nil => rfl
  | cons b rest ih =>
    have hb : b < 256 := h b (by simp)
    have h1 : b / 16 < 16 := by omega
    have h2 : b % 16 < 16 := by omega
    simp only [hexEncodeBytes, bufferFromHex, hexVal_hexTbl _ h1, hexVal_hexTbl _ h2]
    rw [ih (fun x hx => h x (by simp [hx]))]
    congr 1
    omega

/-- Hex renderings never contain the `.` token separator. -/
theorem hexEncodeBytes_ne_dot (bs : List Nat) (h : ∀ b ∈ bs, b < 256) :
    ∀ c ∈ hexEncodeBytes bs, c ≠ '.' := by
  induction bs with
  | nil => simp [hexEncodeBytes]
  | cons b rest ih =>
    intro c hc
    have hb : b < 256 := h b (by simp)
    simp only [hexEncodeBytes, List.mem_cons] at hc
    rcases hc with rfl | rfl | hc
    · exact hexTbl_ne_dot _ (by omega)
    · exact hexTbl_ne_dot _ (by omega)
    · exact ih (fun x hx => h x (by simp [hx])) c hc

/-! ## Helper lemmas: base64 codec -/

theorem b64Val_b64Tbl : ∀ k < 64, b64Val (b64Tbl k) = k := by decide

theorem b64Tbl_mem_alphabet : ∀ k < 64, isB64Char (b64Tbl k) = true := by decide

theorem b64Tbl_ne_pad : ∀ k < 64, b64Tbl k ≠ '=' := by decide

theorem b64Tbl_ne_dot : ∀ k < 64, b64Tbl k ≠ '.' := by decide

/-- Node's forgiving base64 decoder inverts the canonical encoder on
byte inputs. -/
theorem bufferFromBase64_base64encode (bs : List Nat) (h : ∀ b ∈ bs, b < 256) :
    bufferFromBase64 (base64encode bs) = bs := by
  unfold bufferFromBase64
  induction bs using base64encode.induct with
  | case1 => rfl
  | case2 b1 =>
    have hb1 : b1 < 256 := h b1 (by simp)
    have k1 : b1 / 4 < 64 := by omega
    have k2 : b1 % 4 * 16 < 64 := by omega
    simp only [base64encode, List.takeWhile, List.filter,
      b64Tbl_ne_pad _ k1, b64Tbl_ne_pad _ k2,
      b64Tbl_mem_alphabet _ k1, b64Tbl_mem_alphabet _ k2,
      decide_not, ne_eq, not_false_eq_true]
    simp only [decide_eq_true_eq, reduceIte, b64DecodeGroups,
      b64Val_b64Tbl _ k1, b64Val_b64Tbl _ k2]
    congr 1
    omega
  | case3 b1 b2 =>
    have hb1 : b1 < 256 := h b1 (by simp)
    have hb2 : b2 < 256 := h b2 (by simp)
    have k1 : b1 / 4 < 64 := by omega
    have k2 : b1 % 4 * 16 + b2 / 16 < 64 := by omega
    have k3 : b2 % 16 * 4 < 64 := by omega
    simp only [base64encode, List.takeWhile, List.filter,
      b64Tbl_ne_pad _ k1, b64Tbl_ne_pad _ k2, b64Tbl_ne_pad _ k3,
      b64Tbl_mem_alphabet _ k1, b64Tbl_mem_alphabet _ k2, b64Tbl_mem_alphabet _ k3,
      decide_not, ne_eq, not_false_eq_true]
    simp only [decide_eq_true_eq, reduceIte, b64DecodeGroups,
      b64Val_b64Tbl _ k1, b64Val_b64Tbl _ k2, b64Val_b64Tbl _ k3]
    have e1 : b1 / 4 * 4 + (b1 % 4 * 16 + b2 / 16) / 16 = b1 := by omega
    have e2 : (b1 % 4 * 16 + b2 / 16) % 16 * 16 + b2 % 16 * 4 / 4 = b2 := by omega
    rw [e1, e2]
  | case4 b1 b2 b3 rest ih =>
    have hb1 : b1 < 256 := h b1 (by simp)
    have hb2 : b2 < 256 := h b2 (by simp)
    have hb3 : b3 < 256 := h b3 (by simp)
    have k1 : b1 / 4 < 64 := by omega
    have k2 : b1 % 4 * 16 + b2 / 16 < 64 := by omega
    have k3 : b2 % 16 * 4 + b3 / 64 < 64 := by omega
    have k4 : b3 % 64 < 64 := by omega
    have ih' := ih (fun x hx => h x (by simp [hx]))
    simp only [base64encode, List.takeWhile, List.filter,
      b64Tbl_ne_pad _ k1, b64Tbl_ne_pad _ k2, b64Tbl_ne_pad _ k3, b64Tbl_ne_pad _ k4,
      b64Tbl_mem_alphabet _ k1, b64Tbl_mem_alphabet _ k2, b64Tbl_mem_alphabet _ k3,
      b64Tbl_mem_alphabet _ k4, decide_not, ne_eq, not_false_eq_true]
    simp only [decide_eq_true_eq, reduceIte, b64DecodeGroups,
      b64Val_b64Tbl _ k1, b64Val_b64Tbl _ k2, b64Val_b64Tbl _ k3, b64Val_b64Tbl _ k4]
    simp only [ne_eq, decide_not] at ih'
    rw [ih']
    simp only [List.cons.injEq]
    refine ⟨by omega, by omega, by omega, trivial⟩

/-- Every character of a canonical base64 rendering is alphabet or `=`;
in particular never the `.` separator. -/
theorem base64encode_ne_dot (bs : List Nat) (h : ∀ b ∈ bs, b < 256) :
    ∀ c ∈ base64encode bs, c ≠ '.' := by
  induction bs using base64encode.induct with
  | case1 => simp [base64encode]
  | case2 b1 =>
    have hb1 : b1 < 256 := h b1 (by simp)
    intro c hc
    simp only [base64encode, List.mem_cons] at hc
    rcases hc with rfl | rfl | rfl | rfl | hc
    · exact b64Tbl_ne_dot _ (by omega)
    · exact b64Tbl_ne_dot _ (by omega)
    · decide
    · decide
    · simp at hc
  | case3 b1 b2 =>
    have hb1 : b1 < 256 := h b1 (by simp)
    have hb2 : b2 < 256 := h b2 (by simp)
    intro c hc
    simp only [base64encode, List.mem_cons] at hc
    rcases hc with rfl | rfl | rfl | rfl | hc
    · exact b64Tbl_ne_dot _ (by omega)
    · exact b64Tbl_ne_dot _ (by omega)
    · exact b64Tbl_ne_dot _ (by omega)
    · decide
    · simp at hc
  | case4 b1 b2 b3 rest ih =>
    have hb1 : b1 < 256 := h b1 (by simp)
    have hb2 : b2 < 256 := h b2 (by simp)
    have hb3 : b3 < 256 := h b3 (by simp)
    intro c hc
    simp only [base64encode, List.mem_cons] at hc
    rcases hc with rfl | rfl | rfl | rfl | hc
    · exact b64Tbl_ne_dot _ (by omega)
    · exact b64Tbl_ne_dot _ (by omega)
    · exact b64Tbl_ne_dot _ (by omega)
    · exact b64Tbl_ne_dot _ (by omega)
    · exact ih (fun x hx => h x (by simp [hx])) c hc

/-! ## Helper lemmas: UTF-8 codec -/

theorem utf8Run_cons (st : Utf8State) (b : Nat) (bs : List Nat) :
    utf8Run st (b :: bs) = (utf8Step st b).1 ++ utf8Run (utf8Step st b).2 bs := rfl

theorem utf8Step_ground (b : Nat) : utf8Step utf8Ground b = utf8Start b := by
  simp [utf8Step, utf8Ground]

theorem utf8Start_ascii (b : Nat) (h : b < 0x80) :
    utf8Start b = ([Char.ofNat b], utf8Ground) := by
  unfold utf8Start
  rw [if_pos h]

theorem utf8Start_two (b : Nat) (h1 : 0xC2 ≤ b) (h2 : b ≤ 0xDF) :
    utf8Start b = ([], ⟨1, b - 0xC0, 0x80, 0xBF⟩) := by
  unfold utf8Start
  rw [if_neg (by omega), if_pos ⟨h1, h2⟩]

theorem utf8Start_three (b : Nat) (h1 : 0xE1 ≤ b) (h2 : b ≤ 0xEF) (h3 : b ≠ 0xED) :
    utf8Start b = ([], ⟨2, b - 0xE0, 0x80, 0xBF⟩) := by
  unfold utf8Start
  rw [if_neg (by omega), if_neg (by omega), if_neg (by omega), if_neg h3,
    if_pos ⟨h1, h2⟩]

theorem utf8Start_four (b : Nat) (h1 : 0xF1 ≤ b) (h2 : b ≤ 0xF3) :
    utf8Start b = ([], ⟨3, b - 0xF0, 0x80, 0xBF⟩) := by
  unfold utf8Start
  rw [if_neg (by omega), if_neg (by omega), if_neg (by omega), if_neg (by omega),
    if_neg (by omega), if_neg (by omega), if_neg (by omega), if_pos ⟨h1, h2⟩]

theorem utf8Step_cont_last (acc lo hi b : Nat) (hlo : lo ≤ b) (hhi : b ≤ hi) :
    utf8Step ⟨1, acc, lo, hi⟩ b = ([Char.ofNat (acc * 64 + (b - 0x80))], utf8Ground) := by
  simp [utf8Step, hlo, hhi]

theorem utf8Step_cont_more (k acc lo hi b : Nat) (hk0 : k ≠ 0) (hk1 : k ≠ 1)
    (hlo : lo ≤ b) (hhi : b ≤ hi) :
    utf8Step ⟨k, acc, lo, hi⟩ b = ([], ⟨k - 1, acc * 64 + (b - 0x80), 0x80, 0xBF⟩) := by
  simp [utf8Step, hk0, hk1, hlo, hhi]

/-- One encoded scalar value decodes back to itself in front of any
remaining bytes. -/
theorem utf8Run_ground_encodeChar (c : Char) (rest : List Nat) :
    utf8Run utf8Ground (utf8EncodeChar c ++ rest) = c :: utf8Run utf8Ground rest := by
  have hv : c.toNat < 0xd800 ∨ (0xdfff < c.toNat ∧ c.toNat < 0x110000) := c.valid
  by_cases h1 : c.toNat < 0x80
  · have he : utf8EncodeChar c = [c.toNat] := by
      simp only [utf8EncodeChar]
      rw [if_pos h1]
    rw [he, List.cons_append, List.nil_append, utf8Run_cons, utf8Step_ground,
      utf8Start_ascii _ h1, Char.ofNat_toNat]
    rfl
  · by_cases h2 : c.toNat < 0x800
    · have he : utf8EncodeChar c = [0xC0 + c.toNat / 64, 0x80 + c.toNat % 64] := by
        simp only [utf8EncodeChar]
        rw [if_neg h1, if_pos h2]
      rw [he, List.cons_append, List.cons_append, List.nil_append, utf8Run_cons,
        utf8Step_ground, utf8Start_two _ (by omega) (by omega)]
      rw [show (([] : List Char), (⟨1, 0xC0 + c.toNat / 64 - 0xC0, 0x80, 0xBF⟩ : Utf8State)).2
          = (⟨1, 0xC0 + c.toNat / 64 - 0xC0, 0x80, 0xBF⟩ : Utf8State) from rfl]
      rw [utf8Run_cons, utf8Step_cont_last _ _ _ _ (by omega) (by omega)]
      rw [show (0xC0 + c.toNat / 64 - 0xC0) * 64 + (0x80 + c.toNat % 64 - 0x80)
          = c.toNat by omega, Char.ofNat_toNat]
      rfl
    · by_cases h3 : c.toNat < 0x10000
      · have he : utf8EncodeChar c
            = [0xE0 + c.toNat / 4096, 0x80 + c.toNat / 64 % 64, 0x80 + c.toNat % 64] := by
          simp only [utf8EncodeChar]
          rw [if_neg h1, if_neg h2, if_pos h3]
        have hstart : utf8Start (0xE0 + c.toNat / 4096)
            = ([], ⟨2, c.toNat / 4096, 0x80 + (if c.toNat / 4096 = 0 then 0x20 else 0),
                0xBF - (if c.toNat / 4096 = 13 then 0x20 else 0)⟩) := by
          by_cases hq0 : c.toNat / 4096 = 0
          · rw [hq0]
            decide
          · by_cases hq13 : c.toNat / 4096 = 13
            · rw [hq13]
              decide
            · have hq15 : c.toNat / 4096 < 16 := by omega
              rw [utf8Start_three _ (by omega) (by omega) (by omega)]
              rw [if_neg hq0, if_neg hq13]
              simp only [Prod.mk.injEq, Utf8State.mk.injEq, true_and, and_true]
              omega
        have hb2lo : 0x80 + (if c.toNat / 4096 = 0 then 0x20 else 0)
            ≤ 0x80 + c.toNat / 64 % 64 := by
          by_cases hq0 : c.toNat / 4096 = 0
          · rw [if_pos hq0]
            omega
          · rw [if_neg hq0]
            omega
        have hb2hi : 0x80 + c.toNat / 64 % 64
            ≤ 0xBF - (if c.toNat / 4096 = 13 then 0x20 else 0) := by
          by_cases hq13 : c.toNat / 4096 = 13
          · rw [if_pos hq13]
            rcases hv with hlt | ⟨hgt, _⟩
            · omega
            · omega
          · rw [if_neg hq13]
            omega
        rw [he, List.cons_append, List.cons_append, List.cons_append, List.nil_append,
          utf8Run_cons, utf8Step_ground, hstart]
        rw [show (([] : List Char), (⟨2, c.toNat / 4096,
              0x80 + (if c.toNat / 4096 = 0 then 0x20 else 0),
              0xBF - (if c.toNat / 4096 = 13 then 0x20 else 0)⟩ : Utf8State)).2
            = (⟨2, c.toNat / 4096, 0x80 + (if c.toNat / 4096 = 0 then 0x20 else 0),
              0xBF - (if c.toNat / 4096 = 13 then 0x20 else 0)⟩ : Utf8State) from rfl]
        rw [utf8Run_cons, utf8Step_cont_more _ _ _ _ _ (by omega) (by omega) hb2lo hb2hi]
        rw [show (([] : List Char), (⟨2 - 1, c.toNat / 4096 * 64 + (0x80 + c.toNat / 64 % 64 - 0x80),
              0x80, 0xBF⟩ : Utf8State)).2
            = (⟨1, c.toNat / 4096 * 64 + (0x80 + c.toNat / 64 % 64 - 0x80), 0x80, 0xBF⟩ :
              Utf8State) from rfl]
        rw [utf8Run_cons, utf8Step_cont_last _ _ _ _ (by omega) (by omega)]
        rw [show (c.toNat / 4096 * 64 + (0x80 + c.toNat / 64 % 64 - 0x80)) * 64
              + (0x80 + c.toNat % 64 - 0x80) = c.toNat by omega, Char.ofNat_toNat]
        rfl
      · have h4 : c.toNat < 0x110000 := by
          rcases hv with hlt | ⟨_, hlt⟩
          · omega
          · exact hlt
        have he : utf8EncodeChar c
            = [0xF0 + c.toNat / 0x40000, 0x80 + c.toNat / 4096 % 64,
               0x80 + c.toNat / 64 % 64, 0x80 + c.toNat % 64] := by
          simp only [utf8EncodeChar]
          rw [if_neg h1, if_neg h2, if_neg h3]
        have hstart : utf8Start (0xF0 + c.toNat / 0x40000)
            = ([], ⟨3, c.toNat / 0x40000,
                0x80 + (if c.toNat / 0x40000 = 0 then 0x10 else 0),
                0xBF - (if c.toNat / 0x40000 = 4 then 0x30 else 0)⟩) := by
          by_cases hq0 : c.toNat / 0x40000 = 0
          · rw [hq0]
            decide
          · by_cases hq4 : c.toNat / 0x40000 = 4
            · rw [hq4]
              decide
            · have hq : c.toNat / 0x40000 < 4 := by omega
              rw [utf8Start_four _ (by omega) (by omega)]
              rw [if_neg hq0, if_neg hq4]
              simp only [Prod.mk.injEq, Utf8State.mk.injEq, true_and, and_true]
              omega
        have hb2lo : 0x80 + (if c.toNat / 0x40000 = 0 then 0x10 else 0)
            ≤ 0x80 + c.toNat / 4096 % 64 := by
          by_cases hq0 : c.toNat / 0x40000 = 0
          · rw [if_pos hq0]
            omega
          · rw [if_neg hq0]
            omega
        have hb2hi : 0x80 + c.toNat / 4096 % 64
            ≤ 0xBF - (if c.toNat / 0x40000 = 4 then 0x30 else 0) := by
          by_cases hq4 : c.toNat / 0x40000 = 4
          · rw [if_pos hq4]
            omega
          · rw [if_neg hq4]
            omega
        rw [he, List.cons_append, List.cons_append, List.cons_append, List.cons_append,
          List.nil_append, utf8Run_cons, utf8Step_ground, hstart]
        rw [show (([] : List Char), (⟨3, c.toNat / 0x40000,
              0x80 + (if c.toNat / 0x40000 = 0 then 0x10 else 0),
              0xBF - (if c.toNat / 0x40000 = 4 then 0x30 else 0)⟩ : Utf8State)).2
            = (⟨3, c.toNat / 0x40000, 0x80 + (if c.toNat / 0x40000 = 0 then 0x10 else 0),
              0xBF - (if c.toNat / 0x40000 = 4 then 0x30 else 0)⟩ : Utf8State) from rfl]
        rw [utf8Run_cons, utf8Step_cont_more _ _ _ _ _ (by omega) (by omega) hb2lo hb2hi]
        rw [show (([] : List Char), (⟨3 - 1, c.toNat / 0x40000 * 64
                + (0x80 + c.toNat / 4096 % 64 - 0x80), 0x80, 0xBF⟩ : Utf8State)).2
            = (⟨2, c.toNat / 0x40000 * 64 + (0x80 + c.toNat / 4096 % 64 - 0x80),
              0x80, 0xBF⟩ : Utf8State) from rfl]
        rw [utf8Run_cons, utf8Step_cont_more _ _ _ _ _ (by omega) (by omega)
          (by omega) (by omega)]
        rw [show (([] : List Char), (⟨2 - 1, (c.toNat / 0x40000 * 64
                + (0x80 + c.toNat / 4096 % 64 - 0x80)) * 64
                + (0x80 + c.toNat / 64 % 64 - 0x80), 0x80, 0xBF⟩ : Utf8State)).2
            = (⟨1, (c.toNat / 0x40000 * 64 + (0x80 + c.toNat / 4096 % 64 - 0x80)) * 64
                + (0x80 + c.toNat / 64 % 64 - 0x80), 0x80, 0xBF⟩ : Utf8State) from rfl]
        rw [utf8Run_cons, utf8Step_cont_last _ _ _ _ (by omega) (by omega)]
        rw [show ((c.toNat / 0x40000 * 64 + (0x80 + c.toNat / 4096 % 64 - 0x80)) * 64
              + (0x80 + c.toNat / 64 % 64 - 0x80)) * 64 + (0x80 + c.toNat % 64 - 0x80)
            = c.toNat by omega, Char.ofNat_toNat]
        rfl

/-- Decoding `toString('utf8')` inverts `Buffer.from(string)` on every string. -/
theorem utf8DecodeReplace_utf8Encode (s : List Char) :
    utf8DecodeReplace (utf8Encode s) = s := by
  unfold utf8DecodeReplace
  induction s with
  | nil => rfl
  | cons c cs ih =>
    have hsplit : utf8Encode (c :: cs) = utf8EncodeChar c ++ utf8Encode cs := by
      simp [utf8Encode]
    rw [hsplit, utf8Run_ground_encodeChar, ih]

/-- Every UTF-8 byte is below 256. -/
theorem utf8EncodeChar_lt_256 (c : Char) : ∀ b ∈ utf8EncodeChar c, b < 256 := by
  have hv : c.toNat < 0xd800 ∨ (0xdfff < c.toNat ∧ c.toNat < 0x110000) := c.valid
  intro b hb
  by_cases h1 : c.toNat < 0x80
  · simp only [utf8EncodeChar, if_pos h1, List.mem_singleton] at hb
    omega
  · by_cases h2 : c.toNat < 0x800
    · simp only [utf8EncodeChar, if_neg h1, if_pos h2, List.mem_cons,
        List.not_mem_nil, or_false] at hb
      rcases hb with rfl | rfl <;> omega
    · by_cases h3 : c.toNat < 0x10000
      · simp only [utf8EncodeChar, if_neg h1, if_neg h2, if_pos h3, List.mem_cons,
          List.not_mem_nil, or_false] at hb
        rcases hb with rfl | rfl | rfl <;> omega
      · have h4 : c.toNat < 0x110000 := by
          rcases hv with hlt | ⟨_, hlt⟩
          · omega
          · exact hlt
        simp only [utf8EncodeChar, if_neg h1, if_neg h2, if_neg h3, List.mem_cons,
          List.not_mem_nil, or_false] at hb
        rcases hb with rfl | rfl | rfl | rfl <;> omega

theorem utf8Encode_lt_256 (s : List Char) : ∀ b ∈ utf8Encode s, b < 256 := by
  intro b hb
  simp only [utf8Encode, List.mem_flatten, List.mem_map] at hb
  obtain ⟨l, ⟨c, _, rfl⟩, hbl⟩ := hb
  exact utf8EncodeChar_lt_256 c b hbl

/-! ## Helper lemmas: split / lastIndexOf / decimal parsing -/

theorem splitOnChar_of_not_mem (sep : Char) (l : List Char) (h : sep ∉ l) :
    splitOnChar sep l = [l] := by
  induction l with
  | nil => rfl
  | cons c rest ih =>
    have hc : ¬c = sep := fun e => h (by simp [e])
    have hr := ih (fun hm => h (by simp [hm]))
    simp only [splitOnChar, hr]
    rw [if_neg hc]

/-- Splitting `a ++ sep :: b` where neither side contains the separator
yields exactly the two parts. -/
theorem splitOnChar_sandwich (sep : Char) (a b : List Char)
    (ha : sep ∉ a) (hb : sep ∉ b) :
    splitOnChar sep (a ++ sep :: b) = [a, b] := by
  induction a with
  | nil =>
    simp [List.nil_append, splitOnChar, splitOnChar_of_not_mem sep b hb]
  | cons c arest ih =>
    have hc : ¬c = sep := fun e => ha (by simp [e])
    have ih' := ih (fun hm => ha (by simp [hm]))
    simp only [List.cons_append, splitOnChar, List.append_eq, ih']
    rw [if_neg hc]

theorem lastIndexOfChar_of_not_mem (ch : Char) (l : List Char) (h : ch ∉ l) :
    lastIndexOfChar ch l = none := by
  induction l with
  | nil => rfl
  | cons c rest ih =>
    have hc : ¬c = ch := fun e => h (by simp [e])
    have hr := ih (fun hm => h (by simp [hm]))
    simp only [lastIndexOfChar, hr]
    rw [if_neg hc]

/-- The rightmost occurrence in `a ++ ch :: b` with `ch` absent from `b`
is at index `a.length`. -/
theorem lastIndexOfChar_sandwich (ch : Char) (a b : List Char) (hb : ch ∉ b) :
    lastIndexOfChar ch (a ++ ch :: b) = some a.length := by
  induction a with
  | nil =>
    simp [List.nil_append, lastIndexOfChar, lastIndexOfChar_of_not_mem ch b hb]
  | cons c arest ih =>
    simp only [List.cons_append, lastIndexOfChar, List.append_eq, ih, List.length_cons]

/-- Decimal digit characters: the facts needed about `Char.ofNat (48 + d)`
for `d < 10`. -/
theorem digitChar_facts : ∀ d < 10,
    (Char.ofNat (48 + d)).isDigit = true ∧ (Char.ofNat (48 + d)).toNat = 48 + d ∧
    Char.ofNat (48 + d) ≠ ':' ∧ jsSpace (Char.ofNat (48 + d)) = false ∧
    Char.ofNat (48 + d) ≠ '-' ∧ Char.ofNat (48 + d) ≠ '+' := by decide

theorem natToDecimalChars_mem (n : Nat) :
    ∀ c ∈ natToDecimalChars n, ∃ d < 10, c = Char.ofNat (48 + d) := by
  intro c hc
  unfold natToDecimalChars at hc
  by_cases h0 : n = 0
  · rw [if_pos h0] at hc
    simp only [List.mem_singleton] at hc
    exact ⟨0, by omega, by rw [hc]⟩
  · rw [if_neg h0] at hc
    simp only [List.mem_map, List.mem_reverse] at hc
    obtain ⟨d, hd, rfl⟩ := hc
    exact ⟨d, Nat.digits_lt_base (by omega) hd, rfl⟩

theorem natToDecimalChars_ne_nil (n : Nat) : natToDecimalChars n ≠ [] := by
  unfold natToDecimalChars
  by_cases h0 : n = 0
  · rw [if_pos h0]
    simp
  · rw [if_neg h0]
    simp [Nat.digits_ne_nil_iff_ne_zero, h0]

/-- Folding the digit characters is the same as folding the digits. -/
theorem foldl_digitChar_eq (L : List Nat) (hL : ∀ d ∈ L, d < 10) (a : Nat) :
    L.foldl (fun x d => x * 10 + ((Char.ofNat (48 + d)).toNat - 48)) a
      = L.foldl (fun x d => x * 10 + d) a := by
  induction L generalizing a with
  | nil => rfl
  | cons d L ih =>
    have hd : d < 10 := hL d (by simp)
    have hsub : 48 + d - 48 = d := by omega
    simp only [List.foldl_cons, (digitChar_facts d hd).2.1, hsub]
    exact ih (fun x hx => hL x (by simp [hx])) _

theorem natToDecimalChars_not_colon (n : Nat) : ':' ∉ natToDecimalChars n := by
  intro hc
  obtain ⟨d, hd, he⟩ := natToDecimalChars_mem n ':' hc
  exact (digitChar_facts d hd).2.2.1 he.symm

theorem takeWhile_all {p : Char → Bool} {l : List Char} (h : ∀ c ∈ l, p c = true) :
    l.takeWhile p = l := by
  induction l with
  | nil => rfl
  | cons c rest ih =>
    rw [List.takeWhile_cons_of_pos (h c (by simp)), ih (fun x hx => h x (by simp [hx]))]

/-- Value computed by the digit fold equals `Nat.ofDigits` of the
little-endian digit list. -/
theorem foldl_reverse_digit_value (L : List Nat) (a : Nat) :
    L.reverse.foldl (fun x d => x * 10 + d) a = a * 10 ^ L.length + Nat.ofDigits 10 L := by
  rw [List.foldl_reverse]
  induction L generalizing a with
  | nil => simp [Nat.ofDigits]
  | cons d L ih =>
    simp only [List.foldr_cons, ih, Nat.ofDigits_cons, List.length_cons]
    rw [pow_succ]
    ring

/-- Parsing a rendered natural: `parseInt(n.toString(), 10) = n`. -/
theorem parseIntJS_natToDecimalChars (n : Nat) :
    parseIntJS (natToDecimalChars n) = some (n : Int) := by
  have hmem := natToDecimalChars_mem n
  obtain ⟨c0, tl, hcons⟩ := List.exists_cons_of_ne_nil (natToDecimalChars_ne_nil n)
  obtain ⟨d0, hd0, hc0⟩ := hmem c0 (by rw [hcons]; simp)
  have hfacts0 := digitChar_facts d0 hd0
  have hdrop : (natToDecimalChars n).dropWhile jsSpace = c0 :: tl := by
    rw [hcons]
    exact List.dropWhile_cons_of_neg (by rw [hc0, hfacts0.2.2.2.1]; simp)
  have hdigit : ∀ c ∈ natToDecimalChars n, c.isDigit = true := by
    intro c hc
    obtain ⟨d, hd, rfl⟩ := hmem c hc
    exact (digitChar_facts d hd).1
  have hparse : parseDecDigits (c0 :: tl) = some n := by
    unfold parseDecDigits
    rw [← hcons, takeWhile_all hdigit]
    rw [if_neg (by simp [natToDecimalChars_ne_nil n])]
    congr 1
    unfold natToDecimalChars
    by_cases h0 : n = 0
    · rw [if_pos h0, h0]
      decide
    · rw [if_neg h0, List.foldl_map]
      rw [foldl_digitChar_eq _ (fun d hd => Nat.digits_lt_base (by omega)
        (List.mem_reverse.mp hd)) 0]
      rw [foldl_reverse_digit_value]
      simp [Nat.ofDigits_digits]
  simp only [parseIntJS, hdrop, List.head?_cons, List.tail_cons, Option.some.injEq]
  rw [if_neg (by rw [hc0]; exact hfacts0.2.2.2.2.1), if_neg (by rw [hc0]; exact hfacts0.2.2.2.2.2)]
  rw [hparse]
  rfl

/-- Dropping past the separator of `a ++ c :: b` leaves `b`. -/
theorem drop_len_succ_append (a : List Char) (c : Char) (b : List Char) :
    (a ++ c :: b).drop (a.length + 1) = b := by
  induction a with
  | nil => simp
  | cons x a ih =>
    simp only [List.cons_append, List.length_cons, List.drop_succ_cons]
    exact ih

/-! ## Session token theorems -/

/-- Generic round-trip: validating a freshly generated token with the same
secret succeeds and returns the original session id and timestamp. -/
theorem token_validate_roundtrip (hmac : HmacFun) (hg : GoodHmac hmac)
    (sessionId secret : List Char) (hs : sessionId ≠ []) (hk : secret ≠ [])
    (nowMs : Nat) (token : List Char)
    (htok : generateSessionToken hmac sessionId secret nowMs = some token) :
    validateSessionToken hmac token secret
      = ⟨true, some sessionId, some (nowMs : Int), none⟩ := by
  have hbytes := utf8Encode_lt_256 (sessionTokenData sessionId nowMs)
  have hdig := hg secret (sessionTokenData sessionId nowMs)
  have htok' : token = base64encode (utf8Encode (sessionTokenData sessionId nowMs))
      ++ '.' :: hexEncodeBytes (hmac secret (sessionTokenData sessionId nowMs)) := by
    unfold generateSessionToken at htok
    rw [if_neg hs, if_neg hk] at htok
    exact (Option.some.inj htok).symm
  subst htok'
  have hne : base64encode (utf8Encode (sessionTokenData sessionId nowMs))
      ++ '.' :: hexEncodeBytes (hmac secret (sessionTokenData sessionId nowMs)) ≠ [] := by
    simp
  have hsplit : splitOnChar '.' (base64encode (utf8Encode (sessionTokenData sessionId nowMs))
      ++ '.' :: hexEncodeBytes (hmac secret (sessionTokenData sessionId nowMs)))
      = [base64encode (utf8Encode (sessionTokenData sessionId nowMs)),
         hexEncodeBytes (hmac secret (sessionTokenData sessionId nowMs))] :=
    splitOnChar_sandwich _ _ _
      (fun hm => base64encode_ne_dot _ hbytes '.' hm rfl)
      (fun hm => hexEncodeBytes_ne_dot _ hdig '.' hm rfl)
  have hdec : decodeBase64Data (base64encode (utf8Encode (sessionTokenData sessionId nowMs)))
      = some (sessionTokenData sessionId nowMs) := by
    unfold decodeBase64Data
    rw [bufferFromBase64_base64encode _ hbytes, utf8DecodeReplace_utf8Encode]
  have hlast : lastIndexOfChar ':' (sessionTokenData sessionId nowMs)
      = some sessionId.length :=
    lastIndexOfChar_sandwich ':' sessionId _ (natToDecimalChars_not_colon nowMs)
  have htake : (sessionTokenData sessionId nowMs).take sessionId.length = sessionId :=
    List.take_left sessionId _
  have hdropD : (sessionTokenData sessionId nowMs).drop (sessionId.length + 1)
      = natToDecimalChars nowMs := drop_len_succ_append sessionId ':' _
  unfold validateSessionToken
  rw [if_neg hne, if_neg hk, hsplit]
  simp [hdec, hlast, htake, hdropD, parseIntJS_natToDecimalChars]

/-! ## Helper lemmas: rate limiter map -/

theorem mapGet_nil (key : String) : mapGet [] key = none := rfl

theorem mapGet_cons_self (key : String) (r : RLRecord) (m : RLMap) :
    mapGet ((key, r) :: m) key = some r := by
  simp [mapGet, List.find?_cons_of_pos]

theorem mapGet_mapDelete_self (m : RLMap) (key : String) :
    mapGet (mapDelete m key) key = none := by
  unfold mapGet mapDelete
  simp only [Option.map_eq_none']
  rw [List.find?_eq_none]
  intro p hp
  have := List.of_mem_filter hp
  simpa using this

theorem find?_filter_of_found {α : Type} (p q : α → Bool) (l : List α) (a : α)
    (hfind : l.find? q = some a) (hp : p a = true) :
    (l.filter p).find? q = some a := by
  induction l with
  | nil => cases hfind
  | cons x l ih =>
    by_cases hq : q x = true
    · rw [List.find?_cons_of_pos _ hq] at hfind
      injection hfind with hax
      subst hax
      rw [List.filter_cons_of_pos hp, List.find?_cons_of_pos _ hq]
    · rw [List.find?_cons_of_neg _ hq] at hfind
      by_cases hpx : p x = true
      · rw [List.filter_cons_of_pos hpx, List.find?_cons_of_neg _ hq]
        exact ih hfind
      · rw [List.filter_cons_of_neg hpx]
        exact ih hfind

theorem mapGet_eq_some_elim (m : RLMap) (key : String) (r : RLRecord)
    (h : mapGet m key = some r) :
    List.find? (fun p => p.1 = key) m = some (key, r) := by
  unfold mapGet at h
  obtain ⟨p, hp, hpr⟩ : ∃ p, List.find? (fun q => q.1 = key) m = some p ∧ p.2 = r := by
    cases hf : List.find? (fun q => q.1 = key) m with
    | none => rw [hf] at h; cases h
    | some p => rw [hf] at h; exact ⟨p, rfl, by injection h⟩
  have hkey : p.1 = key := by
    have := List.find?_some hp
    simpa using this
  rw [hp]
  rw [show p = (key, r) from Prod.ext hkey hpr]

theorem mapGet_rlCleanup_live (m : RLMap) (now : Nat) (key : String) (r : RLRecord)
    (h : mapGet m key = some r) (hlive : now ≤ r.resetAt) :
    mapGet (rlCleanup m now) key = some r := by
  unfold mapGet rlCleanup
  rw [find?_filter_of_found _ _ _ _ (mapGet_eq_some_elim m key r h) (by simpa using hlive)]
  rfl

theorem mapGet_rlCleanup_none (m : RLMap) (now : Nat) (key : String)
    (h : mapGet m key = none) :
    mapGet (rlCleanup m now) key = none := by
  unfold mapGet rlCleanup
  unfold mapGet at h
  simp only [Option.map_eq_none'] at h ⊢
  rw [List.find?_eq_none] at h ⊢
  intro a ha
  exact h a (List.mem_of_mem_filter ha)

theorem mapGet_mapSet_self (m : RLMap) (key : String) (v : RLRecord) :
    mapGet (mapSet m key v) key = some v := by
  unfold mapGet mapSet
  by_cases h : (List.find? (fun p => p.1 = key) m).isSome
  · rw [if_pos h]
    induction m with
    | nil => simp at h
    | cons p m ih =>
      by_cases hp : p.1 = key
      · rw [List.map_cons, if_pos hp, List.find?_cons_of_pos _ (by simp)]
        rfl
      · rw [List.find?_cons_of_neg _ (by simpa using hp)] at h
        rw [List.map_cons, if_neg hp, List.find?_cons_of_neg _ (by simpa using hp)]
        exact ih h
  · rw [if_neg h]
    have hf : List.find? (fun p => p.1 = key) m = none := by
      cases hf : List.find? (fun p => p.1 = key) m with
      | none => rfl
      | some p => rw [hf] at h; simp at h
    clear h
    induction m with
    | nil => simp [List.find?_cons_of_pos]
    | cons p m ih =>
      by_cases hp : p.1 = key
      · rw [List.find?_cons_of_pos _ (by simpa using hp)] at hf
        cases hf
      · rw [List.find?_cons_of_neg _ (by simpa using hp)] at hf
        rw [List.cons_append, List.find?_cons_of_neg _ (by simpa using hp)]
        exact ih hf

/-! ## Rate limiter evaluation lemmas -/

theorem rlCheck_empty_inc (cfg : RLConfig) (key : String) (t : Nat) :
    rlCheck cfg [] key true t
      = (⟨true, cfg.maxAttempts - 1, none⟩, [(key, ⟨1, t + cfg.windowMs⟩)]) := by
  simp [rlCheck, rlStep1, rlStep2, mapGet, mapSet, mapSize, rlCleanup, List.find?]

theorem rlCheck_live_single (cfg : RLConfig) (key : String) (c R : Nat) (inc : Bool) (t : Nat)
    (hthr : 1 ≤ cfg.cleanupThreshold) (hlive : ¬ t > R) (hc : c < cfg.maxAttempts) :
    rlCheck cfg [(key, ⟨c, R⟩)] key inc t
      = (⟨true, cfg.maxAttempts - (if inc then c + 1 else c), none⟩,
         if inc then [(key, ⟨c + 1, R⟩)] else [(key, ⟨c, R⟩)]) := by
  have hthr' : ¬ (1 > cfg.cleanupThreshold) := by omega
  have hc' : ¬ (c ≥ cfg.maxAttempts) := by omega
  cases inc <;>
    simp [rlCheck, rlStep1, rlStep2, mapGet, mapSet, mapDelete, mapSize, rlCleanup,
      List.find?, hlive, hthr', hc']

theorem rlCheck_blocked_single (cfg : RLConfig) (key : String) (c R : Nat) (inc : Bool)
    (t : Nat) (hthr : 1 ≤ cfg.cleanupThreshold) (hlive : ¬ t > R)
    (hc : c ≥ cfg.maxAttempts) :
    rlCheck cfg [(key, ⟨c, R⟩)] key inc t
      = (⟨false, 0, some ((R - t + 999) / 1000)⟩, [(key, ⟨c, R⟩)]) := by
  have hthr' : ¬ (1 > cfg.cleanupThreshold) := by omega
  simp [rlCheck, rlStep1, rlStep2, mapGet, mapSize, rlCleanup, List.find?, hlive, hthr', hc]

theorem rlCheck_expired_single (cfg : RLConfig) (key : String) (c R : Nat) (t : Nat)
    (hexp : t > R) :
    rlCheck cfg [(key, ⟨c, R⟩)] key true t
      = (⟨true, cfg.maxAttempts - 1, none⟩, [(key, ⟨1, t + cfg.windowMs⟩)]) := by
  simp [rlCheck, rlStep1, rlStep2, mapGet, mapSet, mapDelete, mapSize, rlCleanup, List.find?, hexp]

/-- Running `check(key)` with increments on a live single-record state:
while the budget is not exhausted every call is allowed and the count
advances by one per call. -/
theorem rlRunSameKey_live (cfg : RLConfig) (key : String) (R : Nat) (ts : List Nat)
    (hthr : 1 ≤ cfg.cleanupThreshold) :
    ∀ c, (∀ t ∈ ts, ¬ t > R) → c + ts.length ≤ cfg.maxAttempts →
      (∀ res ∈ (rlRunSameKey cfg key true [(key, ⟨c, R⟩)] ts).1, res.allowed = true)
      ∧ (rlRunSameKey cfg key true [(key, ⟨c, R⟩)] ts).2
          = [(key, ⟨c + ts.length, R⟩)] := by
  induction ts with
  | nil =>
    intro c _ _
    exact ⟨by simp [rlRunSameKey], by simp [rlRunSameKey]⟩
  | cons t ts ih =>
    intro c hts hcount
    have hstep := rlCheck_live_single cfg key c R true t hthr
      (hts t (by simp)) (by simp at hcount; omega)
    have ih' := ih (c + 1) (fun x hx => hts x (by simp [hx]))
      (by simp at hcount ⊢; omega)
    unfold rlRunSameKey
    rw [hstep]
    simp only [eq_self_iff_true, if_true, if_pos trivial]
    constructor
    · intro res hres
      simp only [List.mem_cons] at hres
      rcases hres with rfl | hres
      · rfl
      · exact ih'.1 res hres
    · rw [ih'.2]
      simp only [List.length_cons]
      rw [show c + (ts.length + 1) = c + 1 + ts.length by omega]

/-- Every validation result is either invalid, or a full success record. -/
theorem validateSessionToken_shape (hmac : HmacFun) (token secret : List Char) :
    (validateSessionToken hmac token secret).valid = false
    ∨ ∃ sid ts, validateSessionToken hmac token secret = ⟨true, some sid, some ts, none⟩ := by
  unfold validateSessionToken
  dsimp only
  repeat' split
  all_goals first
    | exact Or.inl rfl
    | exact Or.inr ⟨_, _, rfl⟩

/-! ## Concrete HMAC instances used by the witnesses -/

/-- A trivial all-zero 32-byte digest function. -/
def hmacConst : HmacFun := fun _ _ => List.replicate 32 0

theorem hmacConst_good : GoodHmac hmacConst := by
  intro k d b hb
  rw [List.eq_of_mem_replicate hb]
  omega

/-- A digest function that depends on the secret's length. -/
def hmacKeyLen : HmacFun := fun k _ => List.replicate 32 (k.length % 256)

theorem hmacKeyLen_good : GoodHmac hmacKeyLen := by
  intro k d b hb
  rw [List.eq_of_mem_replicate hb]
  omega

/-- A digest function with an empty digest. -/
def hmacNil : HmacFun := fun _ _ => []

/-! ## Claim theorems: session tokens -/

/-- C1: for every pair of non-empty strings `sessionId` and `secret`,
validating a freshly generated token with the same secret succeeds:
`valid = true`, the returned sessionId is the original one (even when it
contains ':' — validation splits at the rightmost ':'), the timestamp is
the embedded generation time, and `error = null`. -/
theorem C1_generate_validate_roundtrip (hmac : HmacFun) (hg : GoodHmac hmac)
    (sessionId secret : List Char) (hs : sessionId ≠ []) (hk : secret ≠ [])
    (nowMs : Nat) (token : List Char)
    (htok : generateSessionToken hmac sessionId secret nowMs = some token) :
    validateSessionToken hmac token secret
      = ⟨true, some sessionId, some (nowMs : Int), none⟩ :=
  token_validate_roundtrip hmac hg sessionId secret hs hk nowMs token htok

theorem C1_generate_validate_roundtrip_witness :
    validateSessionToken hmacConst
        ((generateSessionToken hmacConst ['a', ':', 'b'] ['s'] 123).getD []) ['s']
      = ⟨true, some ['a', ':', 'b'], some (123 : Int), none⟩ :=
  C1_generate_validate_roundtrip hmacConst hmacConst_good ['a', ':', 'b'] ['s']
    (by decide) (by decide) 123 _ (by rfl)

/-- C3: validating a token generated under `secretA` with a different
`secretB` fails with "Invalid signature", under the standard assumption
that HMAC-SHA256 digests of the same data differ across different keys. -/
theorem C3_wrong_secret_rejected (hmac : HmacFun) (hg : GoodHmac hmac)
    (sessionId secretA secretB : List Char) (hs : sessionId ≠ [])
    (hka : secretA ≠ []) (hkb : secretB ≠ []) (_hkeys : secretA ≠ secretB)
    (nowMs : Nat)
    (hdiff : hmac secretA (sessionTokenData sessionId nowMs)
        ≠ hmac secretB (sessionTokenData sessionId nowMs))
    (token : List Char)
    (htok : generateSessionToken hmac sessionId secretA nowMs = some token) :
    validateSessionToken hmac token secretB
      = ⟨false, none, none, some "Invalid signature"⟩ := by
  have hbytes := utf8Encode_lt_256 (sessionTokenData sessionId nowMs)
  have hdigA := hg secretA (sessionTokenData sessionId nowMs)
  have hdigB := hg secretB (sessionTokenData sessionId nowMs)
  have htok' : token = base64encode (utf8Encode (sessionTokenData sessionId nowMs))
      ++ '.' :: hexEncodeBytes (hmac secretA (sessionTokenData sessionId nowMs)) := by
    unfold generateSessionToken at htok
    rw [if_neg hs, if_neg hka] at htok
    exact (Option.some.inj htok).symm
  subst htok'
  have hne : base64encode (utf8Encode (sessionTokenData sessionId nowMs))
      ++ '.' :: hexEncodeBytes (hmac secretA (sessionTokenData sessionId nowMs)) ≠ [] := by
    simp
  have hsplit : splitOnChar '.' (base64encode (utf8Encode (sessionTokenData sessionId nowMs))
      ++ '.' :: hexEncodeBytes (hmac secretA (sessionTokenData sessionId nowMs)))
      = [base64encode (utf8Encode (sessionTokenData sessionId nowMs)),
         hexEncodeBytes (hmac secretA (sessionTokenData sessionId nowMs))] :=
    splitOnChar_sandwich _ _ _
      (fun hm => base64encode_ne_dot _ hbytes '.' hm rfl)
      (fun hm => hexEncodeBytes_ne_dot _ hdigA '.' hm rfl)
  have hdec : decodeBase64Data (base64encode (utf8Encode (sessionTokenData sessionId nowMs)))
      = some (sessionTokenData sessionId nowMs) := by
    unfold decodeBase64Data
    rw [bufferFromBase64_base64encode _ hbytes, utf8DecodeReplace_utf8Encode]
  unfold validateSessionToken
  rw [if_neg hne, if_neg hkb, hsplit]
  simp only [hdec, bufferFromHex_hexEncodeBytes _ hdigA, bufferFromHex_hexEncodeBytes _ hdigB]
  rw [if_pos (Or.inr hdiff)]

theorem C3_wrong_secret_rejected_witness :
    validateSessionToken hmacKeyLen
        ((generateSessionToken hmacKeyLen ['i', 'd'] ['a'] 7).getD []) ['a', 'b']
      = ⟨false, none, none, some "Invalid signature"⟩ :=
  C3_wrong_secret_rejected hmacKeyLen hmacKeyLen_good ['i', 'd'] ['a'] ['a', 'b']
    (by decide) (by decide) (by decide) (by decide) 7 (by decide) _ (by rfl)

/-- C5 counterexample: a token whose data part consists only of non-base64
characters (and holds exactly one '.') is rejected with
"Invalid signature", not with "Invalid base64 encoding" — Node's base64
decoder never throws, so the claimed distinct error is never produced. -/
theorem C5_counterexample :
    (∃ c, c ∈ (['!', '!', '!'] : List Char) ∧ isB64Char c = false)
    ∧ validateSessionToken hmacConst ['!', '!', '!', '.', '0', '0'] ['s']
        = ⟨false, none, none, some "Invalid signature"⟩ := by
  constructor
  · exact ⟨'!', by decide, by decide⟩
  · decide

/-- C5 amended: base64 decoding never fails in Node, so
`validateSessionToken` never returns the error "Invalid base64 encoding";
tokens with a non-base64 data part fall through to the later checks
(typically "Invalid signature"). -/
theorem C5_invalid_base64_unreachable (hmac : HmacFun) (token secret : List Char) :
    (validateSessionToken hmac token secret).error ≠ some "Invalid base64 encoding" := by
  unfold validateSessionToken
  simp only [decodeBase64Data]
  repeat' split
  all_goals first
    | decide
    | simp

/-- C9: `isSessionTokenExpired` fails closed — every rejected token is
reported expired with the validation error surfaced; every accepted token
yields `ageMs = now - timestamp`, `expired = (ageMs > maxAgeMs)`, and a
negative age (clock skew) is never expired for non-negative `maxAgeMs`. -/
theorem C9_expiry_fail_closed (hmac : HmacFun) (token secret : List Char)
    (maxAgeMs nowMs : Int) :
    ((validateSessionToken hmac token secret).valid = false →
        isSessionTokenExpired hmac token secret maxAgeMs nowMs
          = ⟨true, none, (validateSessionToken hmac token secret).error⟩)
    ∧ ((validateSessionToken hmac token secret).valid = true →
        ∃ ts, (validateSessionToken hmac token secret).timestamp = some ts
          ∧ isSessionTokenExpired hmac token secret maxAgeMs nowMs
              = ⟨decide (nowMs - ts > maxAgeMs), some (nowMs - ts), none⟩
          ∧ (nowMs - ts < 0 → 0 ≤ maxAgeMs →
              (isSessionTokenExpired hmac token secret maxAgeMs nowMs).expired = false)) := by
  constructor
  · intro hv
    unfold isSessionTokenExpired
    simp [hv]
  · intro hv
    rcases validateSessionToken_shape hmac token secret with hbad | ⟨sid, ts, heq⟩
    · rw [hv] at hbad
      cases hbad
    · refine ⟨ts, by rw [heq], ?_, ?_⟩
      · unfold isSessionTokenExpired
        rw [heq]
        rfl
      · intro hneg hnn
        unfold isSessionTokenExpired
        rw [heq]
        simp only [ExpiryResult.expired, Option.getD_some, Bool.not_true,
          Bool.false_eq_true, if_false, decide_eq_false_iff_not, gt_iff_lt, not_lt]
        omega

theorem C9_expiry_fail_closed_witness :
    (((validateSessionToken hmacConst ['x'] ['s']).valid = false →
        isSessionTokenExpired hmacConst ['x'] ['s'] 100 0
          = ⟨true, none, (validateSessionToken hmacConst ['x'] ['s']).error⟩)
      ∧ ((validateSessionToken hmacConst ['x'] ['s']).valid = true →
          ∃ ts, (validateSessionToken hmacConst ['x'] ['s']).timestamp = some ts
            ∧ isSessionTokenExpired hmacConst ['x'] ['s'] 100 0
                = ⟨decide ((0 : Int) - ts > 100), some (0 - ts), none⟩
            ∧ (0 - ts < 0 → 0 ≤ (100 : Int) →
                (isSessionTokenExpired hmacConst ['x'] ['s'] 100 0).expired = false))) :=
  C9_expiry_fail_closed hmacConst ['x'] ['s'] 100 0

/-- C10: when a token has exactly two parts and its signature matches, but
the decoded data contains no ':', validation fails with the error
"Invalid token data format"; dually, a valid result only arises from data
containing at least one ':'. -/
theorem C10_missing_colon_rejected (hmac : HmacFun) (token secret : List Char)
    (encodedData signature : List Char)
    (htk : token ≠ []) (hsec : secret ≠ [])
    (hsplit : splitOnChar '.' token = [encodedData, signature])
    (hsig : bufferFromHex signature
        = bufferFromHex (hexEncodeBytes
            (hmac secret (utf8DecodeReplace (bufferFromBase64 encodedData))))) :
    (':' ∉ utf8DecodeReplace (bufferFromBase64 encodedData) →
        validateSessionToken hmac token secret
          = ⟨false, none, none, some "Invalid token data format"⟩)
    ∧ ((validateSessionToken hmac token secret).valid = true →
        ':' ∈ utf8DecodeReplace (bufferFromBase64 encodedData)) := by
  have hmain : ∀ hnc : ':' ∉ utf8DecodeReplace (bufferFromBase64 encodedData),
      validateSessionToken hmac token secret
        = ⟨false, none, none, some "Invalid token data format"⟩ := by
    intro hnc
    unfold validateSessionToken
    rw [if_neg htk, if_neg hsec, hsplit]
    simp only [decodeBase64Data, hsig]
    rw [if_neg (by simp), lastIndexOfChar_of_not_mem _ _ hnc]
  constructor
  · exact hmain
  · intro hv
    by_cases hc : ':' ∈ utf8DecodeReplace (bufferFromBase64 encodedData)
    · exact hc
    · rw [hmain hc] at hv
      cases hv

theorem C10_missing_colon_rejected_witness :
    ((':' ∉ utf8DecodeReplace (bufferFromBase64 ['a', 'b']) →
        validateSessionToken hmacNil ['a', 'b', '.'] ['s']
          = ⟨false, none, none, some "Invalid token data format"⟩)
      ∧ ((validateSessionToken hmacNil ['a', 'b', '.'] ['s']).valid = true →
          ':' ∈ utf8DecodeReplace (bufferFromBase64 ['a', 'b']))) :=
  C10_missing_colon_rejected hmacNil ['a', 'b', '.'] ['s'] ['a', 'b'] []
    (by decide) (by decide) (by decide) (by decide)

/-! ## Claim theorems: rate limiter -/

theorem rlStep1_of_expired (m : RLMap) (key : String) (now : Nat) (r : RLRecord)
    (hget : mapGet m key = some r) (hexp : now > r.resetAt) :
    rlStep1 m key now = mapDelete m key := by
  unfold rlStep1
  rw [hget]
  exact if_pos hexp

theorem rlStep1_of_live (m : RLMap) (key : String) (now : Nat) (r : RLRecord)
    (hget : mapGet m key = some r) (hlive : ¬ now > r.resetAt) :
    rlStep1 m key now = m := by
  unfold rlStep1
  rw [hget]
  exact if_neg hlive

theorem rlStep1_of_none (m : RLMap) (key : String) (now : Nat)
    (hget : mapGet m key = none) : rlStep1 m key now = m := by
  unfold rlStep1
  rw [hget]

theorem mapGet_rlStep2_none (cfg : RLConfig) (m1 : RLMap) (now : Nat) (key : String)
    (h : mapGet m1 key = none) : mapGet (rlStep2 cfg m1 now) key = none := by
  unfold rlStep2
  split
  · exact mapGet_rlCleanup_none m1 now key h
  · exact h

theorem mapGet_rlStep2_live (cfg : RLConfig) (m1 : RLMap) (now : Nat) (key : String)
    (r : RLRecord) (h : mapGet m1 key = some r) (hlive : now ≤ r.resetAt) :
    mapGet (rlStep2 cfg m1 now) key = some r := by
  unfold rlStep2
  split
  · exact mapGet_rlCleanup_live m1 now key r h hlive
  · exact h

/-- C2: a limiter with `maxAttempts = N` starting fresh allows the first N
increment-checks of a key when every call happens strictly before the
window reset; a further call still strictly inside the window is blocked,
and a call past the window (now > resetAt) is allowed again. -/
theorem C2_window_behavior (cfg : RLConfig) (key : String) (t0 : Nat) (rest : List Nat)
    (hthr : 1 ≤ cfg.cleanupThreshold)
    (hlen : (t0 :: rest).length = cfg.maxAttempts)
    (hin : ∀ t ∈ t0 :: rest, t < t0 + cfg.windowMs)
    (tBlock tOk : Nat) (hB : tBlock < t0 + cfg.windowMs) (hO : tOk > t0 + cfg.windowMs) :
    (∀ res ∈ (rlRunSameKey cfg key true [] (t0 :: rest)).1, res.allowed = true)
    ∧ (rlCheck cfg (rlRunSameKey cfg key true [] (t0 :: rest)).2 key true tBlock).1.allowed
        = false
    ∧ (rlCheck cfg (rlRunSameKey cfg key true [] (t0 :: rest)).2 key true tOk).1.allowed
        = true := by
  have hfirst := rlCheck_empty_inc cfg key t0
  have hrun := rlRunSameKey_live cfg key (t0 + cfg.windowMs) rest hthr 1
    (fun t ht => by have := hin t (by simp [ht]); omega)
    (by simp only [List.length_cons] at hlen; omega)
  have hunf : rlRunSameKey cfg key true [] (t0 :: rest)
      = ((⟨true, cfg.maxAttempts - 1, none⟩ : RLCheckResult) ::
          (rlRunSameKey cfg key true [(key, ⟨1, t0 + cfg.windowMs⟩)] rest).1,
        (rlRunSameKey cfg key true [(key, ⟨1, t0 + cfg.windowMs⟩)] rest).2) := by
    rw [rlRunSameKey, hfirst]
  have hstate : (rlRunSameKey cfg key true [] (t0 :: rest)).2
      = [(key, ⟨1 + rest.length, t0 + cfg.windowMs⟩)] := by
    rw [hunf]
    exact hrun.2
  have hcnt : 1 + rest.length = cfg.maxAttempts := by
    simp only [List.length_cons] at hlen
    omega
  refine ⟨?_, ?_, ?_⟩
  · intro res hres
    rw [hunf] at hres
    simp only [List.mem_cons] at hres
    rcases hres with rfl | hres
    · rfl
    · exact hrun.1 res hres
  · rw [hstate,
      rlCheck_blocked_single cfg key _ _ true tBlock hthr (by omega) (by omega)]
  · rw [hstate, rlCheck_expired_single cfg key _ _ tOk (by omega)]

theorem C2_window_behavior_witness :
    ((∀ res ∈ (rlRunSameKey ⟨1000, 3, 1000⟩ "k" true [] [0, 1, 2]).1, res.allowed = true)
      ∧ (rlCheck ⟨1000, 3, 1000⟩ (rlRunSameKey ⟨1000, 3, 1000⟩ "k" true [] [0, 1, 2]).2
          "k" true 3).1.allowed = false
      ∧ (rlCheck ⟨1000, 3, 1000⟩ (rlRunSameKey ⟨1000, 3, 1000⟩ "k" true [] [0, 1, 2]).2
          "k" true 2000).1.allowed = true) :=
  C2_window_behavior ⟨1000, 3, 1000⟩ "k" 0 [1, 2] (by decide) (by decide)
    (by decide) 3 2000 (by decide) (by decide)

/-- C4 counterexample: at `now = resetAt` (so `now ≥ resetAt`) the record
is still read and incremented — by `check` and by `recordFailure` — rather
than treated as absent. -/
theorem C4_counterexample :
    (100 : Nat) ≥ 100
    ∧ mapGet (rlCheck ⟨100, 5, 1000⟩ [("k", ⟨1, 100⟩)] "k" true 100).2 "k"
        = some ⟨2, 100⟩
    ∧ mapGet (rlRecordFailure ⟨100, 5, 1000⟩ [("k", ⟨1, 100⟩)] "k" 100) "k"
        = some ⟨2, 100⟩ := by
  refine ⟨by omega, ?_, ?_⟩ <;> decide

/-- C4 amended: the expiry boundary is strict.  A stored record is treated
as absent (discarded, or replaced by a fresh `count = 1` record) exactly
when `now > resetAt`; while `now ≤ resetAt` the record keeps its window and
its count only stays or increments by one (on `check` with increment, and
unconditionally on `recordFailure`). -/
theorem C4_expiry_boundary (cfg : RLConfig) (m : RLMap) (key : String) (inc : Bool)
    (now : Nat) (r : RLRecord) (hget : mapGet m key = some r) :
    (now > r.resetAt →
        (mapGet (rlCheck cfg m key inc now).2 key = none
          ∨ mapGet (rlCheck cfg m key inc now).2 key = some ⟨1, now + cfg.windowMs⟩)
        ∧ mapGet (rlRecordFailure cfg m key now) key = some ⟨1, now + cfg.windowMs⟩)
    ∧ (¬ now > r.resetAt →
        (∀ r', mapGet (rlCheck cfg m key inc now).2 key = some r' →
            r'.resetAt = r.resetAt
            ∧ (r'.count = r.count ∨ (r'.count = r.count + 1 ∧ inc = true)))
        ∧ mapGet (rlRecordFailure cfg m key now) key = some ⟨r.count + 1, r.resetAt⟩) := by
  constructor
  · intro hexp
    have h1 := rlStep1_of_expired m key now r hget hexp
    have h2 : mapGet (rlStep2 cfg (rlStep1 m key now) now) key = none := by
      rw [h1]
      exact mapGet_rlStep2_none cfg _ now key (mapGet_mapDelete_self m key)
    constructor
    · unfold rlCheck
      simp only [h2]
      cases inc with
      | true => simp [mapGet_mapSet_self]
      | false => simp [h2]
    · unfold rlRecordFailure
      rw [hget]
      show mapGet (if now > r.resetAt then mapSet m key ⟨1, now + cfg.windowMs⟩
          else mapSet m key ⟨r.count + 1, r.resetAt⟩) key = _
      rw [if_pos hexp]
      exact mapGet_mapSet_self m key _
  · intro hlive
    have h1 := rlStep1_of_live m key now r hget hlive
    have h2 : mapGet (rlStep2 cfg (rlStep1 m key now) now) key = some r := by
      rw [h1]
      exact mapGet_rlStep2_live cfg m now key r hget (by omega)
    constructor
    · intro r' hr'
      unfold rlCheck at hr'
      simp only [h2] at hr'
      by_cases hc : r.count ≥ cfg.maxAttempts
      · rw [if_pos hc] at hr'
        simp only [h2] at hr'
        injection hr' with h
        rw [← h]
        exact ⟨rfl, Or.inl rfl⟩
      · rw [if_neg hc] at hr'
        cases inc with
        | true =>
          simp only [if_pos trivial, mapGet_mapSet_self] at hr'
          injection hr' with h
          rw [← h]
          exact ⟨rfl, Or.inr ⟨rfl, rfl⟩⟩
        | false =>
          simp only [Bool.false_eq_true, if_false, h2] at hr'
          injection hr' with h
          rw [← h]
          exact ⟨rfl, Or.inl rfl⟩
    · unfold rlRecordFailure
      rw [hget]
      show mapGet (if now > r.resetAt then mapSet m key ⟨1, now + cfg.windowMs⟩
          else mapSet m key ⟨r.count + 1, r.resetAt⟩) key = _
      rw [if_neg hlive]
      exact mapGet_mapSet_self m key _

theorem C4_expiry_boundary_witness :
    ((50 : Nat) > 100 →
        (mapGet (rlCheck ⟨100, 5, 1000⟩ [("k", ⟨1, 100⟩)] "k" true 50).2 "k" = none
          ∨ mapGet (rlCheck ⟨100, 5, 1000⟩ [("k", ⟨1, 100⟩)] "k" true 50).2 "k"
              = some ⟨1, 50 + 100⟩)
        ∧ mapGet (rlRecordFailure ⟨100, 5, 1000⟩ [("k", ⟨1, 100⟩)] "k" 50) "k"
            = some ⟨1, 50 + 100⟩)
    ∧ (¬ (50 : Nat) > 100 →
        (∀ r', mapGet (rlCheck ⟨100, 5, 1000⟩ [("k", ⟨1, 100⟩)] "k" true 50).2 "k"
              = some r' →
            r'.resetAt = 100 ∧ (r'.count = 1 ∨ (r'.count = 1 + 1 ∧ true = true)))
        ∧ mapGet (rlRecordFailure ⟨100, 5, 1000⟩ [("k", ⟨1, 100⟩)] "k" 50) "k"
            = some ⟨1 + 1, 100⟩) :=
  C4_expiry_boundary ⟨100, 5, 1000⟩ [("k", ⟨1, 100⟩)] "k" true 50 ⟨1, 100⟩ (by decide)

/-- With `increment = false`, `check` returns exactly the state left by
the two passive deletion steps — it never calls `records.set`. -/
theorem rlCheck_state_no_inc (cfg : RLConfig) (m : RLMap) (key : String) (now : Nat) :
    (rlCheck cfg m key false now).2 = rlStep2 cfg (rlStep1 m key now) now := by
  unfold rlCheck
  cases hget : mapGet (rlStep2 cfg (rlStep1 m key now) now) key with
  | none => simp [hget]
  | some r =>
    simp only [hget]
    by_cases hc : r.count ≥ cfg.maxAttempts
    · rw [if_pos hc]
    · rw [if_neg hc]
      simp

/-- The expired-entry deletion only removes entries. -/
theorem rlStep1_subset (m : RLMap) (key : String) (now : Nat) :
    ∀ p ∈ rlStep1 m key now, p ∈ m := by
  intro p hp
  unfold rlStep1 at hp
  split at hp
  · split at hp
    · exact List.mem_of_mem_filter hp
    · exact hp
  · exact hp

/-- The threshold sweep only removes entries. -/
theorem rlStep2_subset (cfg : RLConfig) (m1 : RLMap) (now : Nat) :
    ∀ p ∈ rlStep2 cfg m1 now, p ∈ m1 := by
  intro p hp
  unfold rlStep2 at hp
  split at hp
  · exact List.mem_of_mem_filter hp
  · exact hp

/-- C6 counterexample: `check(key, increment=false)` can still mutate the
map — an expired record for the key is deleted, so `size()` drops from 1
to 0 (while the call itself reports `remaining = maxAttempts - 1`). -/
theorem C6_counterexample :
    mapSize [("k", (⟨1, 100⟩ : RLRecord))] = 1
    ∧ (rlCheck ⟨100, 5, 1000⟩ [("k", ⟨1, 100⟩)] "k" false 200).2 = []
    ∧ mapSize (rlCheck ⟨100, 5, 1000⟩ [("k", ⟨1, 100⟩)] "k" false 200).2 = 0
    ∧ (rlCheck ⟨100, 5, 1000⟩ [("k", ⟨1, 100⟩)] "k" false 200).1
        = ⟨true, 5 - 1, none⟩ := by
  refine ⟨rfl, ?_, ?_, ?_⟩ <;> decide

/-- C6 amended: `check(key, increment=false)` never creates a record and
never increments a count — every entry of the updated map is an unchanged
entry of the original map; when no live record exists for the key (none at
all, or an expired one) it returns `allowed = true` with
`remaining = maxAttempts - 1` (not `maxAttempts`); when a live record with
`count < maxAttempts` exists it returns `allowed = true` with
`remaining = maxAttempts - count`; and the map itself is left unchanged
provided the key's record (if any) is live and the map size does not
exceed `cleanupThreshold` — otherwise the expired-entry deletion and the
threshold sweep may still remove entries and change `size()`. -/
theorem C6_check_only_frame (cfg : RLConfig) (m : RLMap) (key : String) (now : Nat) :
    (∀ p ∈ (rlCheck cfg m key false now).2, p ∈ m)
    ∧ ((mapGet m key = none ∨ (∃ r, mapGet m key = some r ∧ now > r.resetAt)) →
        (rlCheck cfg m key false now).1 = ⟨true, cfg.maxAttempts - 1, none⟩)
    ∧ (∀ r, mapGet m key = some r → ¬ now > r.resetAt → r.count < cfg.maxAttempts →
        (rlCheck cfg m key false now).1 = ⟨true, cfg.maxAttempts - r.count, none⟩)
    ∧ ((∀ r, mapGet m key = some r → ¬ now > r.resetAt) →
        mapSize m ≤ cfg.cleanupThreshold →
        (rlCheck cfg m key false now).2 = m) := by
  refine ⟨?_, ?_, ?_, ?_⟩
  · intro p hp
    rw [rlCheck_state_no_inc] at hp
    exact rlStep1_subset m key now p (rlStep2_subset cfg _ now p hp)
  · intro hdead
    have hnone : mapGet (rlStep2 cfg (rlStep1 m key now) now) key = none := by
      rcases hdead with hget | ⟨r, hget, hexp⟩
      · rw [rlStep1_of_none m key now hget]
        exact mapGet_rlStep2_none cfg m now key hget
      · rw [rlStep1_of_expired m key now r hget hexp]
        exact mapGet_rlStep2_none cfg _ now key (mapGet_mapDelete_self m key)
    unfold rlCheck
    simp [hnone]
  · intro r hget hlive hc
    have h2 : mapGet (rlStep2 cfg (rlStep1 m key now) now) key = some r := by
      rw [rlStep1_of_live m key now r hget hlive]
      exact mapGet_rlStep2_live cfg m now key r hget (by omega)
    unfold rlCheck
    simp only [h2]
    rw [if_neg (by omega)]
    simp
  · intro hlive hsz
    have h1 : rlStep1 m key now = m := by
      cases hget : mapGet m key with
      | none => exact rlStep1_of_none m key now hget
      | some r => exact rlStep1_of_live m key now r hget (hlive r hget)
    rw [rlCheck_state_no_inc, h1]
    unfold rlStep2
    rw [if_neg (by omega)]

theorem C6_check_only_frame_witness :
    ((∀ p ∈ (rlCheck ⟨100, 5, 1000⟩ [("k", ⟨1, 100⟩)] "k" false 200).2,
        p ∈ [("k", (⟨1, 100⟩ : RLRecord))])
      ∧ ((mapGet [("k", (⟨1, 100⟩ : RLRecord))] "k" = none
            ∨ (∃ r, mapGet [("k", (⟨1, 100⟩ : RLRecord))] "k" = some r ∧ 200 > r.resetAt)) →
          (rlCheck ⟨100, 5, 1000⟩ [("k", ⟨1, 100⟩)] "k" false 200).1 = ⟨true, 5 - 1, none⟩)
      ∧ (∀ r, mapGet [("k", (⟨1, 100⟩ : RLRecord))] "k" = some r → ¬ 200 > r.resetAt →
          r.count < 5 →
          (rlCheck ⟨100, 5, 1000⟩ [("k", ⟨1, 100⟩)] "k" false 200).1
            = ⟨true, 5 - r.count, none⟩)
      ∧ ((∀ r, mapGet [("k", (⟨1, 100⟩ : RLRecord))] "k" = some r → ¬ 200 > r.resetAt) →
          mapSize [("k", (⟨1, 100⟩ : RLRecord))] ≤ 1000 →
          (rlCheck ⟨100, 5, 1000⟩ [("k", ⟨1, 100⟩)] "k" false 200).2
            = [("k", ⟨1, 100⟩)])) :=
  C6_check_only_frame ⟨100, 5, 1000⟩ [("k", ⟨1, 100⟩)] "k" 200

/-- C7: a live record at or above `maxAttempts` makes `check` return
`allowed = false`, `remaining = 0` and
`retryAfter = ⌈(resetAt - now) / 1000⌉` seconds, leaving the record
unchanged. -/
theorem C7_blocked_result (cfg : RLConfig) (m : RLMap) (key : String) (inc : Bool)
    (now : Nat) (r : RLRecord) (hget : mapGet m key = some r)
    (hlive : ¬ now > r.resetAt) (hc : r.count ≥ cfg.maxAttempts) :
    (rlCheck cfg m key inc now).1 = ⟨false, 0, some ((r.resetAt - now) ⌈/⌉ 1000)⟩
    ∧ mapGet (rlCheck cfg m key inc now).2 key = some r := by
  have h1 := rlStep1_of_live m key now r hget hlive
  have h2 : mapGet (rlStep2 cfg (rlStep1 m key now) now) key = some r := by
    rw [h1]
    exact mapGet_rlStep2_live cfg m now key r hget (by omega)
  have hceil : (r.resetAt - now + 999) / 1000 = (r.resetAt - now) ⌈/⌉ 1000 := by
    rw [Nat.ceilDiv_eq_add_pred_div]
    congr 1
  constructor
  · unfold rlCheck
    simp only [h2]
    rw [if_pos hc, ← hceil]
  · unfold rlCheck
    simp only [h2]
    rw [if_pos hc]
    exact h2

theorem C7_blocked_result_witness :
    ((rlCheck ⟨100, 5, 1000⟩ [("k", ⟨5, 100⟩)] "k" true 50).1
        = ⟨false, 0, some ((100 - 50) ⌈/⌉ 1000)⟩
      ∧ mapGet (rlCheck ⟨100, 5, 1000⟩ [("k", ⟨5, 100⟩)] "k" true 50).2 "k"
          = some ⟨5, 100⟩) :=
  C7_blocked_result ⟨100, 5, 1000⟩ [("k", ⟨5, 100⟩)] "k" true 50 ⟨5, 100⟩
    (by decide) (by decide) (by decide)

/-! ## Claim theorems: credential env file -/

theorem splitOnChar_ne_nil (sep : Char) (l : List Char) : splitOnChar sep l ≠ [] := by
  cases l with
  | nil => simp [splitOnChar]
  | cons c rest =>
    unfold splitOnChar
    split
    · split <;> simp
    · split <;> simp

theorem splitOnChar_append_cons (sep : Char) (a rest : List Char) (ha : sep ∉ a) :
    splitOnChar sep (a ++ sep :: rest) = a :: splitOnChar sep rest := by
  induction a with
  | nil =>
    obtain ⟨x, xs, hx⟩ : ∃ x xs, splitOnChar sep rest = x :: xs := by
      cases h : splitOnChar sep rest with
      | nil => exact absurd h (splitOnChar_ne_nil sep rest)
      | cons x xs => exact ⟨x, xs, rfl⟩
    simp only [List.nil_append, splitOnChar, hx]
    simp
  | cons c a ih =>
    have hc : ¬ c = sep := fun e => ha (by simp [e])
    have ih' := ih (fun hm => ha (by simp [hm]))
    simp only [List.cons_append, splitOnChar, List.append_eq, ih']
    rw [if_neg hc]

/-- Splitting the newline-joined lines (with the trailing newline) returns
exactly the lines followed by one empty segment. -/
theorem splitOnChar_joinLines (lines : List (List Char))
    (hnl : ∀ l ∈ lines, '\n' ∉ l) (hne : lines ≠ []) :
    splitOnChar '\n' (joinLines lines ++ ['\n']) = lines ++ [[]] := by
  induction lines with
  | nil => exact absurd rfl hne
  | cons l ls ih =>
    cases ls with
    | nil =>
      show splitOnChar '\n' (l ++ '\n' :: []) = [l, []]
      rw [splitOnChar_append_cons _ _ _ (hnl l (by simp))]
      rfl
    | cons l2 ls2 =>
      show splitOnChar '\n' ((l ++ '\n' :: joinLines (l2 :: ls2)) ++ ['\n']) = _
      rw [List.append_assoc, List.cons_append,
        splitOnChar_append_cons _ _ _ (hnl l (by simp)),
        ih (fun x hx => hnl x (by simp [hx])) (by simp)]
      rfl

/-- A `KEY=VALUE` line determines its key when keys are '='-free. -/
theorem key_line_inj (sep : Char) :
    ∀ k1 k2 t1 t2 : List Char, sep ∉ k1 → sep ∉ k2 →
      k1 ++ sep :: t1 = k2 ++ sep :: t2 → k1 = k2 ∧ t1 = t2 := by
  intro k1
  induction k1 with
  | nil =>
    intro k2 t1 t2 h1 h2 he
    cases k2 with
    | nil => simpa using he
    | cons y k2 =>
      exfalso
      simp only [List.nil_append, List.cons_append, List.cons.injEq] at he
      exact h2 (by simp [he.1])
  | cons x k1 ih =>
    intro k2 t1 t2 h1 h2 he
    cases k2 with
    | nil =>
      exfalso
      simp only [List.cons_append, List.nil_append, List.cons.injEq] at he
      exact h1 (by simp [he.1])
    | cons y k2 =>
      simp only [List.cons_append, List.cons.injEq] at he
      obtain ⟨hxy, hrest⟩ := he
      have hr := ih k2 t1 t2 (fun hm => h1 (by simp [hm])) (fun hm => h2 (by simp [hm])) hrest
      exact ⟨by rw [hxy, hr.1], hr.2⟩

/-- With nodup keys, entries are determined by their key. -/
theorem nodup_keys_unique (l : List (List Char × Option (List Char)))
    (hnd : (l.map Prod.fst).Nodup) :
    ∀ p ∈ l, ∀ q ∈ l, p.1 = q.1 → p = q := by
  induction l with
  | nil =>
    intro p hp
    simp at hp
  | cons a l ih =>
    rw [List.map_cons, List.nodup_cons] at hnd
    intro p hp q hq hk
    simp only [List.mem_cons] at hp hq
    rcases hp with rfl | hp <;> rcases hq with rfl | hq
    · rfl
    · exact absurd (by rw [hk]; exact List.mem_map_of_mem Prod.fst hq) hnd.1
    · exact absurd (by rw [← hk]; exact List.mem_map_of_mem Prod.fst hp) hnd.1
    · exact ih hnd.2 p hp q hq hk

/-- C8: the written content is exactly the surviving credential entries,
one `KEY=VALUE` line each, joined by UNIX newlines in insertion order with
a trailing newline; a key with an empty or absent value heads no line of
the content, and zero surviving entries leave a single newline. -/
theorem C8_env_file_content (creds : List (List Char × Option (List Char)))
    (hnd : (creds.map Prod.fst).Nodup)
    (hkeq : ∀ p ∈ creds, '=' ∉ p.1)
    (hknl : ∀ p ∈ creds, '\n' ∉ p.1)
    (hvnl : ∀ p ∈ creds, ∀ v, p.2 = some v → '\n' ∉ v) :
    ((creds.filter (fun p => credSurvives p.2)) ≠ [] →
        splitOnChar '\n' (createSessionEnvFileContent creds)
          = (creds.filter (fun p => credSurvives p.2)).map envLine ++ [[]])
    ∧ (∀ p ∈ creds, credSurvives p.2 = false →
        ∀ line ∈ splitOnChar '\n' (createSessionEnvFileContent creds),
          ∀ t, line ≠ p.1 ++ '=' :: t)
    ∧ ((creds.filter (fun p => credSurvives p.2)) = [] →
        createSessionEnvFileContent creds = ['\n']) := by
  have hlines : ∀ l ∈ (creds.filter (fun p => credSurvives p.2)).map envLine,
      '\n' ∉ l := by
    intro l hl
    simp only [List.mem_map] at hl
    obtain ⟨p, hpf, rfl⟩ := hl
    have hp : p ∈ creds := List.mem_of_mem_filter hpf
    intro hmem
    unfold envLine at hmem
    rcases List.mem_append.mp hmem with h | h
    · exact hknl p hp h
    · rcases List.mem_cons.mp h with h | h
      · exact absurd h (by decide)
      · cases hv : p.2 with
        | none =>
          rw [hv] at h
          simp at h
        | some v =>
          rw [hv] at h
          exact hvnl p hp v hv (by simpa using h)
  have hmain : ∀ hne : (creds.filter (fun p => credSurvives p.2)) ≠ [],
      splitOnChar '\n' (createSessionEnvFileContent creds)
        = (creds.filter (fun p => credSurvives p.2)).map envLine ++ [[]] := by
    intro hne
    unfold createSessionEnvFileContent
    exact splitOnChar_joinLines _ hlines (by simpa using hne)
  have hempty : ∀ hfe : (creds.filter (fun p => credSurvives p.2)) = [],
      createSessionEnvFileContent creds = ['\n'] := by
    intro hfe
    unfold createSessionEnvFileContent
    rw [hfe]
    rfl
  refine ⟨hmain, ?_, hempty⟩
  intro p hp hdead line hline t hbad
  by_cases hfe : (creds.filter (fun q => credSurvives q.2)) = []
  · rw [hempty hfe] at hline
    rw [show splitOnChar '\n' ['\n'] = [[], []] by decide] at hline
    have hnil : line = [] := by
      rcases List.mem_cons.mp hline with h | h
      · exact h
      · simpa using h
    rw [hnil] at hbad
    exact absurd hbad (by simp)
  · rw [hmain hfe] at hline
    rcases List.mem_append.mp hline with h | h
    · simp only [List.mem_map] at h
      obtain ⟨q, hqf, hql⟩ := h
      have hq : q ∈ creds := List.mem_of_mem_filter hqf
      have hsurv : credSurvives q.2 = true := by
        have := List.of_mem_filter hqf
        simpa using this
      rw [hbad] at hql
      unfold envLine at hql
      have hkeys := key_line_inj '=' q.1 p.1 (q.2.getD []) t
        (hkeq q hq) (hkeq p hp) hql
      have : q = p := nodup_keys_unique creds hnd q hq p hp hkeys.1
      rw [this, hdead] at hsurv
      cases hsurv
    · have hnil : line = [] := by simpa using h
      rw [hnil] at hbad
      exact absurd hbad (by simp)

theorem C8_env_file_content_witness :
    ((([(['A'], some ['1']), (['B'], none), (['C'], some []), (['D'], some ['2'])].filter
          (fun p => credSurvives p.2)) ≠ [] →
        splitOnChar '\n' (createSessionEnvFileContent
            [(['A'], some ['1']), (['B'], none), (['C'], some []), (['D'], some ['2'])])
          = ([(['A'], some ['1']), (['B'], none), (['C'], some []), (['D'], some ['2'])].filter
              (fun p => credSurvives p.2)).map envLine ++ [[]])
      ∧ (∀ p ∈ [(['A'], some ['1']), (['B'], none), (['C'], some []), (['D'], some ['2'])],
          credSurvives p.2 = false →
          ∀ line ∈ splitOnChar '\n' (createSessionEnvFileContent
              [(['A'], some ['1']), (['B'], none), (['C'], some []), (['D'], some ['2'])]),
            ∀ t, line ≠ p.1 ++ '=' :: t)
      ∧ (([(['A'], some ['1']), (['B'], none), (['C'], some []), (['D'], some ['2'])].filter
            (fun p => credSurvives p.2)) = [] →
          createSessionEnvFileContent
              [(['A'], some ['1']), (['B'], none), (['C'], some []), (['D'], some ['2'])]
            = ['\n'])) :=
  C8_env_file_content
    [(['A'], some ['1']), (['B'], none), (['C'], some []), (['D'], some ['2'])]
    (by decide) (by decide) (by decide)
    (fun p hp v hv => by
      fin_cases hp <;> cases hv <;> decide)

end DemoShared
